import Mathlib

/-!
Verification of the BPE codec of `miditok` (`src/miditok/bpe.py`): the merge
learner (`BPE.bpe`), the merge applier (`apply_bpe`), the decomposer
(`decompose_bpe`), and the vocabulary loading branch of `load_params`.

Token sequences are lists of naturals.  A vocabulary descriptor string
`"<Type>_<Value>"` or `"BPE_<pair>.<full-decomposition>"` is modelled as a
tagged value so that the `split('_') / split('.') / split('-')` parsing in the
source becomes field access.  Python loops over mutable lists are translated
to structural recursion; where the source loop's iteration count is data
dependent (the fixed-point loop of `apply_bpe`, the index scan of
`decompose_bpe`), an explicit fuel argument is used and the chosen fuel is
proved sufficient for the inputs the theorems speak about.  Fallible steps
(`KeyError`, `ValueError` from `max()` on an empty dict, the `assert`, the
division by `original_mean`) are modelled with `Option` / `Except`.
-/

set_option autoImplicit false

namespace MidiTok

/-- Modelled from the spec (§3): the descriptor string of a vocabulary entry,
`"<EventType>_<EventValue>"` for primitive tokens or
`"BPE_<immediate-pair>.<full-decomposition>"` for merged tokens (the pair and
the decomposition are `-`-joined integer lists in the source). -/
inductive Descriptor where
  | prim (typ val : String)
  | bpe (succession fullDecomp : List Nat)
deriving DecidableEq, Repr

/-- Whether a descriptor's type field is the synthetic category `"BPE"`. -/
def Descriptor.isBPE : Descriptor → Bool
  | .bpe _ _ => true
  | _ => false

/-- Modelled from the spec (§3, §4.1; `vocabulary.py` is not part of the
sources): the vocabulary's `token ⇄ descriptor` bijection, kept as the
`_token_to_event` association list in insertion order. -/
structure Vocabulary where
  token_to_event : List (Nat × Descriptor)
deriving DecidableEq, Repr

/-- Modelled from the spec (§4.1): `lookup(token) -> descriptor`
(`self.vocab[token]` / `self.vocab.token_to_event[token]`), `none` standing
for a Python `KeyError`. -/
def lookupToken (v : Vocabulary) (t : Nat) : Option Descriptor :=
  (v.token_to_event.find? (fun e => e.1 == t)).map Prod.snd

/-- Modelled from the spec (§4.1): `lookup(descriptor) -> token`
(`self.vocab[descriptor_string]`).  The reverse traversal mirrors the Python
dict `_event_to_token`, in which a later insertion for the same descriptor
overwrites an earlier one. -/
def lookupEvent (v : Vocabulary) (d : Descriptor) : Option Nat :=
  (v.token_to_event.reverse.find? (fun e => e.2 == d)).map Prod.fst

/-- `size()` of the vocabulary (`len(self.vocab)`). -/
def Vocabulary.size (v : Vocabulary) : Nat := v.token_to_event.length

/-- Modelled from the spec (§4.1): the next unused integer id for
`add_event`. -/
def nextId (v : Vocabulary) : Nat :=
  v.token_to_event.foldr (fun e m => max (e.1 + 1) m) 0

/-- Modelled from the spec (§4.1): `add_event(event) -> token` assigns the
next unused integer id and inserts the descriptor. -/
def addEvent (v : Vocabulary) (d : Descriptor) : Vocabulary :=
  ⟨v.token_to_event ++ [(nextId v, d)]⟩

/-- `set_bpe_tokens_successions` (bpe.py:112-116): the
`bpe_token ↦ immediate succession` table, built from the descriptors of all
tokens of type `BPE`, in vocabulary insertion order. -/
def set_bpe_tokens_successions (v : Vocabulary) : List (Nat × List Nat) :=
  v.token_to_event.filterMap (fun e =>
    match e.2 with
    | .bpe sc _ => some (e.1, sc)
    | _ => none)

/-- Whether a token is primitive in `v` (its descriptor exists and is not of
type `BPE`). -/
def isPrimTok (v : Vocabulary) (t : Nat) : Bool :=
  match lookupToken v t with
  | some (.prim _ _) => true
  | _ => false

/-- The full decomposition a token stands for: the recorded full
decomposition for a merged token, the token itself otherwise. -/
def expandTok (v : Vocabulary) (t : Nat) : List Nat :=
  match lookupToken v t with
  | some (.bpe _ f) => f
  | _ => [t]

/-- Pointwise extension of `expandTok` to a sequence. -/
def expandList (v : Vocabulary) : List Nat → List Nat
  | [] => []
  | t :: ts => expandTok v t ++ expandList v ts

/- ### Merge applier (`apply_bpe`, bpe.py:118-139) -/

/-- The inner `while i <= len(tokens) - len(token_succession)` scan of
`apply_bpe` for one BPE token: wherever the succession matches, the matched
span is replaced by `tok` and the scan continues right after the replacement.
The fuel argument makes the recursion structural; `bpeScan` below supplies
`tokens.length`, which is enough because every step consumes at least one
element. -/
def bpeScanFuel (tok : Nat) (succ : List Nat) : Nat → List Nat → List Nat
  | _, [] => []
  | 0, l => l
  | fuel + 1, t :: ts =>
    if succ.isPrefixOf (t :: ts) then
      tok :: bpeScanFuel tok succ fuel (ts.drop (succ.length - 1))
    else
      t :: bpeScanFuel tok succ fuel ts

/-- One left-to-right replacement pass of `apply_bpe` for one BPE token. -/
def bpeScan (tok : Nat) (succ : List Nat) (tokens : List Nat) : List Nat :=
  bpeScanFuel tok succ tokens.length tokens

/-- One round of `apply_bpe`: the `for tok, token_succession in
self.bpe_successions.items()` loop, scanning for every BPE token in
insertion order. -/
def applyRound (succs : List (Nat × List Nat)) (tokens : List Nat) : List Nat :=
  match succs with
  | [] => tokens
  | p :: rest => applyRound rest (bpeScan p.1 p.2 tokens)

/-- The outer `while previous_len != len(tokens)` fixed-point loop of
`apply_bpe`: rounds repeat while the sequence keeps getting shorter (a round
never lengthens the sequence, see `applyRound_length_le`).  `apply_bpe`
supplies fuel `tokens.length + 1`, which is enough because each continuing
round strictly shrinks the sequence. -/
def applyLoopFuel (succs : List (Nat × List Nat)) : Nat → List Nat → List Nat
  | 0, tokens => tokens
  | fuel + 1, tokens =>
    let t := applyRound succs tokens
    if t.length < tokens.length then applyLoopFuel succs fuel t else t

/-- `apply_bpe` (bpe.py:118-139): returns the input unchanged when
`has_bpe` is false, otherwise runs replacement rounds to the length fixed
point. -/
def apply_bpe (has_bpe : Bool) (succs : List (Nat × List Nat))
    (tokens : List Nat) : List Nat :=
  if has_bpe then applyLoopFuel succs (tokens.length + 1) tokens else tokens

/- ### Decomposer (`decompose_bpe`, bpe.py:175-189) -/

/-- The `while i < len(tokens)` loop of `decompose_bpe`, with the processed
region kept reversed in `acc` and the scan position at the head of the third
argument.  A merged token is deleted and its full decomposition inserted in
place; the unconditional `i += 1` then moves the scan to the element right
after position `i`, which is the first element of `fullDecomp ++ rest` —
hence that element (the first newly inserted token, when the decomposition is
nonempty) is moved to `acc` without being examined.  An unknown token is a
`KeyError` (`none`); exhausted fuel is also `none` (the source loop diverges
on vocabularies whose decompositions iterate forever). -/
def decomposeGo (v : Vocabulary) : Nat → List Nat → List Nat → Option (List Nat)
  | _, acc, [] => some acc.reverse
  | 0, _, _ :: _ => none
  | fuel + 1, acc, t :: rest =>
    match lookupToken v t with
    | none => none
    | some (.prim _ _) => decomposeGo v fuel (t :: acc) rest
    | some (.bpe _ full) =>
      match full ++ rest with
      | [] => some acc.reverse
      | x :: xs => decomposeGo v fuel (x :: acc) xs

/-- The largest recorded full-decomposition length in the vocabulary. -/
def maxFullLen (v : Vocabulary) : Nat :=
  v.token_to_event.foldr
    (fun e m =>
      max (match e.2 with
           | .bpe _ f => f.length
           | _ => 0) m) 0

/-- `decompose_bpe` (bpe.py:175-189).  The fuel bounds the number of loop
iterations; it is proved sufficient whenever every recorded full
decomposition consists of primitive tokens. -/
def decompose_bpe (v : Vocabulary) (tokens : List Nat) : Option (List Nat) :=
  decomposeGo v (tokens.length * (maxFullLen v + 1) + 1) [] tokens

/- ### Merge learner (`BPE.bpe`, bpe.py:30-110) -/

/-- The adjacent pairs `tuple(track[i:i+2])` of one track, in scan order. -/
def pairsOf : List Nat → List (Nat × Nat)
  | a :: b :: rest => (a, b) :: pairsOf (b :: rest)
  | _ => []

/-- `occurrences[pair] += 1` with Python dict semantics: an existing key
keeps its place, a new key is appended. -/
def bump : List ((Nat × Nat) × Nat) → Nat × Nat → List ((Nat × Nat) × Nat)
  | [], p => [(p, 1)]
  | (q, c) :: rest, p =>
    if q = p then (q, c + 1) :: rest else (q, c) :: bump rest p

/-- The occurrence count of every adjacent token pair across every track
(bpe.py:67-74), an association list in first-appearance order. -/
def countPairs (tracks : List (List Nat)) : List ((Nat × Nat) × Nat) :=
  tracks.foldl (fun occ tr => (pairsOf tr).foldl bump occ) []

/-- `max(occurrences, key=occurrences.get)`: keeps the current best and
replaces it only on a strictly greater count, so ties resolve to the
first-inserted key. -/
def maxKeyGo (p : Nat × Nat) (c : Nat) : List ((Nat × Nat) × Nat) → Nat × Nat
  | [] => p
  | (q, d) :: rest => if c < d then maxKeyGo q d rest else maxKeyGo p c rest

/-- The most recurrent succession (bpe.py:76); `none` models the `ValueError`
that `max` raises on an empty dict. -/
def maxKey : List ((Nat × Nat) × Nat) → Option (Nat × Nat)
  | [] => none
  | (p, c) :: rest => some (maxKeyGo p c rest)

/-- The error conditions of the learner, named after the Python exception
each line of the source raises. -/
inductive LearnError where
  | assertionError
  | valueErrorMaxEmpty
  | keyError
  | zeroDivisionError
deriving DecidableEq, Repr

instance {ε α : Type} [DecidableEq ε] [DecidableEq α] :
    DecidableEq (Except ε α) := fun a b =>
  match a, b with
  | .error e₁, .error e₂ =>
    if h : e₁ = e₂ then isTrue (by rw [h])
    else isFalse (fun hc => h (Except.error.inj hc))
  | .error _, .ok _ => isFalse (fun hc => Except.noConfusion hc)
  | .ok _, .error _ => isFalse (fun hc => Except.noConfusion hc)
  | .ok a₁, .ok a₂ =>
    if h : a₁ = a₂ then isTrue (by rw [h])
    else isFalse (fun hc => h (Except.ok.inj hc))

/-- One `to_replace_bis` contribution (bpe.py:78-83): a merged token
contributes its recorded full decomposition, any other known token
contributes itself, an unknown token is a `KeyError`. -/
def flattenTok (v : Vocabulary) (t : Nat) : Except LearnError (List Nat) :=
  match lookupToken v t with
  | none => .error .keyError
  | some (.bpe _ f) => .ok f
  | some (.prim _ _) => .ok [t]

/-- The in-place corpus rewrite of one track (bpe.py:88-93): a left-to-right
single pass; after a replacement the scan resumes right after the new token,
so the pair straddling the replacement is not re-examined. -/
def rewriteTrack (pair : Nat × Nat) (newTok : Nat) : List Nat → List Nat
  | a :: b :: rest =>
    if (a, b) = pair then newTok :: rewriteTrack pair newTok rest
    else a :: rewriteTrack pair newTok (b :: rest)
  | l => l

/-- The state the learner mutates: the vocabulary and the loaded corpus
tracks. -/
structure LearnState where
  vocab : Vocabulary
  corpus : List (List Nat)
deriving DecidableEq, Repr

/-- One iteration of the `while len(self.vocab) < vocab_size` loop
(bpe.py:65-93): count pairs, pick the winner, register the merged token,
rewrite every track. -/
def learnStep (s : LearnState) : Except LearnError LearnState :=
  match maxKey (countPairs s.corpus) with
  | none => .error .valueErrorMaxEmpty
  | some pr =>
    match flattenTok s.vocab pr.1, flattenTok s.vocab pr.2 with
    | .error e, _ => .error e
    | .ok _, .error e => .error e
    | .ok fa, .ok fb =>
      match lookupEvent (addEvent s.vocab (.bpe [pr.1, pr.2] (fa ++ fb)))
          (.bpe [pr.1, pr.2] (fa ++ fb)) with
      | none => .error .keyError
      | some newTok =>
        .ok ⟨addEvent s.vocab (.bpe [pr.1, pr.2] (fa ++ fb)),
          s.corpus.map (rewriteTrack pr newTok)⟩

/-- The learner loop, iterating `learnStep` while the vocabulary is below
the target size.  Each successful step grows the vocabulary by exactly one
entry, so fuel `target - size` is exact; `learnLoop_fuel_stable` shows any
larger fuel computes the same result, i.e. the source loop terminates. -/
def learnLoop (target : Nat) : Nat → LearnState → Except LearnError LearnState
  | 0, s => .ok s
  | fuel + 1, s =>
    if s.vocab.size < target then
      match learnStep s with
      | .error e => .error e
      | .ok s' => learnLoop target fuel s'
    else .ok s

/-- Mean track length (bpe.py:106-107), with the source's explicit guard for
an empty track list. -/
def meanLen (tracks : List (List Nat)) : ℚ :=
  if tracks.length = 0 then 0
  else ((tracks.map List.length).sum : ℚ) / (tracks.length : ℚ)

/-- The `bpe` method (bpe.py:30-110) on an already-loaded corpus: the
`assert vocab_size > len(self.vocab)` precondition, the learning loop, and
the final statistics `(original mean, new mean, percentage variation)`; the
variation divides by the original mean with no guard
(`.error .zeroDivisionError` if it is zero). -/
def bpe (corpus : List (List Nat)) (v : Vocabulary) (vocab_size : Nat) :
    Except LearnError (LearnState × ℚ × ℚ × ℚ) :=
  if vocab_size ≤ v.size then .error .assertionError
  else
    match learnLoop vocab_size (vocab_size - v.size) ⟨v, corpus⟩ with
    | .error e => .error e
    | .ok s' =>
      if meanLen corpus = 0 then .error .zeroDivisionError
      else .ok (s', meanLen corpus, meanLen s'.corpus,
        (meanLen s'.corpus - meanLen corpus) / meanLen corpus * 100)

/- ### `load_params` (bpe.py:254-260), `token_to_event` branch -/

/-- Python dict assignment `d[k] = v`: an existing key keeps its position and
gets the new value, a new key is appended. -/
def dictInsert {α β : Type} [DecidableEq α] :
    List (α × β) → α → β → List (α × β)
  | [], k, val => [(k, val)]
  | (k', v') :: rest, k, val =>
    if k' = k then (k, val) :: rest else (k', v') :: dictInsert rest k val

/-- The vocabulary state rebuilt by the `token_to_event` branch of
`load_params`: both dict comprehensions plus the recomputed `has_bpe`
flag. -/
structure LoadedVocab where
  token_to_event_map : List (Nat × Descriptor)
  event_to_token_map : List (Descriptor × Nat)
  has_bpe : Bool
deriving DecidableEq, Repr

/-- The `token_to_event` branch of `load_params` (bpe.py:254-260):
`_token_to_event` and `_event_to_token` are built by dict comprehensions over
the same persisted pairs — with no duplicate check — and `has_bpe` is
recomputed from the presence of a token of type `BPE`. -/
def load_token_to_event (pairs : List (Nat × Descriptor)) : LoadedVocab :=
  let t2e := pairs.foldl (fun m e => dictInsert m e.1 e.2) []
  let e2t := pairs.foldl (fun m e => dictInsert m e.2 e.1) []
  { token_to_event_map := t2e
    event_to_token_map := e2t
    has_bpe := !(t2e.filter (fun e => e.2.isBPE)).isEmpty }

/- ### Codec state threading (for the frame property) -/

/-- The codec attributes `apply_bpe` and `decompose_bpe` can read or write:
`self.has_bpe`, `self.bpe_successions`, `self.vocab`. -/
structure CodecState where
  has_bpe : Bool
  bpe_successions : List (Nat × List Nat)
  vocab : Vocabulary
deriving DecidableEq, Repr

/-- State-threaded translation of the inner scan of `apply_bpe`. -/
def bpeScanFuelSt (st : CodecState) (tok : Nat) (succ : List Nat) :
    Nat → List Nat → CodecState × List Nat
  | _, [] => (st, [])
  | 0, l => (st, l)
  | fuel + 1, t :: ts =>
    if succ.isPrefixOf (t :: ts) then
      let r := bpeScanFuelSt st tok succ fuel (ts.drop (succ.length - 1))
      (r.1, tok :: r.2)
    else
      let r := bpeScanFuelSt st tok succ fuel ts
      (r.1, t :: r.2)

/-- State-threaded translation of one round of `apply_bpe`. -/
def applyRoundSt (st : CodecState) (succs : List (Nat × List Nat))
    (tokens : List Nat) : CodecState × List Nat :=
  match succs with
  | [] => (st, tokens)
  | p :: rest =>
    let r := bpeScanFuelSt st p.1 p.2 tokens.length tokens
    applyRoundSt r.1 rest r.2

/-- State-threaded translation of the fixed-point loop of `apply_bpe`. -/
def applyLoopFuelSt (st : CodecState) :
    Nat → List Nat → CodecState × List Nat
  | 0, tokens => (st, tokens)
  | fuel + 1, tokens =>
    let r := applyRoundSt st st.bpe_successions tokens
    if r.2.length < tokens.length then applyLoopFuelSt r.1 fuel r.2 else r

/-- `apply_bpe` as a state transformer: every read of `self` goes through the
threaded state, and the returned state is whatever the body left behind. -/
def apply_bpe_st (st : CodecState) (tokens : List Nat) :
    CodecState × List Nat :=
  if st.has_bpe then applyLoopFuelSt st (tokens.length + 1) tokens
  else (st, tokens)

/-- State-threaded translation of the loop of `decompose_bpe`. -/
def decomposeGoSt (st : CodecState) :
    Nat → List Nat → List Nat → CodecState × Option (List Nat)
  | _, acc, [] => (st, some acc.reverse)
  | 0, _, _ :: _ => (st, none)
  | fuel + 1, acc, t :: rest =>
    match lookupToken st.vocab t with
    | none => (st, none)
    | some (.prim _ _) => decomposeGoSt st fuel (t :: acc) rest
    | some (.bpe _ full) =>
      match full ++ rest with
      | [] => (st, some acc.reverse)
      | x :: xs => decomposeGoSt st fuel (x :: acc) xs

/-- `decompose_bpe` as a state transformer. -/
def decompose_bpe_st (st : CodecState) (tokens : List Nat) :
    CodecState × Option (List Nat) :=
  decomposeGoSt st (tokens.length * (maxFullLen st.vocab + 1) + 1) [] tokens

/- ### Vocabulary well-formedness checks -/

/-- Every merged token's recorded full decomposition contains only primitive
tokens (the flatness invariant of §3). -/
def flatVocab (v : Vocabulary) : Bool :=
  v.token_to_event.all (fun e =>
    match e.2 with
    | .bpe _ f => f.all (isPrimTok v)
    | _ => true)

/-- Flatness plus nonemptiness of every recorded full decomposition (a
descriptor string always parses to at least one integer). -/
def flatNonemptyVocab (v : Vocabulary) : Bool :=
  v.token_to_event.all (fun e =>
    match e.2 with
    | .bpe _ f => !f.isEmpty && f.all (isPrimTok v)
    | _ => true)

/-- The shape the learner gives a vocabulary: distinct token ids; every
merged entry has a nonempty immediate succession, a nonempty and flat full
decomposition, and the full decomposition is exactly the flattening of its
succession. -/
def learnedVocab (v : Vocabulary) : Bool :=
  decide ((v.token_to_event.map Prod.fst).Nodup) &&
    v.token_to_event.all (fun e =>
      match e.2 with
      | .prim _ _ => true
      | .bpe sc f =>
        !sc.isEmpty && !f.isEmpty && f.all (isPrimTok v) &&
          decide (f = expandList v sc))

/- ### Concrete instances (the spec's §8 scenario and test vectors) -/

/-- The primitive vocabulary `{0, 1, 2, 3}` of the spec's concrete
scenario. -/
def vocabFour : Vocabulary :=
  ⟨[(0, .prim "Pitch" "0"), (1, .prim "Pitch" "1"),
    (2, .prim "Pitch" "2"), (3, .prim "Pitch" "3")]⟩

/-- `vocabFour` after learning the single merge `(0, 1) ↦ 4`. -/
def vocabFive : Vocabulary :=
  ⟨vocabFour.token_to_event ++ [(4, .bpe [0, 1] [0, 1])]⟩

/-- A vocabulary whose merged token `5` records a full decomposition whose
first element is itself the merged token `4`: not producible by the learner,
but representable in the persisted format and loadable through
`load_params`. -/
def vocabNonFlat : Vocabulary :=
  ⟨[(0, .prim "Pitch" "0"), (1, .prim "Pitch" "1"), (2, .prim "Pitch" "2"),
    (4, .bpe [0, 1] [0, 1]), (5, .bpe [4, 0] [4, 0])]⟩

/-- A persisted bijection in which the two distinct tokens `0` and `1` both
map to the same descriptor. -/
def dupPairs : List (Nat × Descriptor) :=
  [(0, .prim "Pitch" "60"), (1, .prim "Pitch" "60")]

/- ### Lookup lemmas -/

theorem lookupToken_mem {v : Vocabulary} {t : Nat} {d : Descriptor}
    (h : lookupToken v t = some d) : (t, d) ∈ v.token_to_event := by
  unfold lookupToken at h
  cases hf : v.token_to_event.find? (fun e => e.1 == t) with
  | none => rw [hf] at h; simp at h
  | some e =>
    rw [hf] at h
    simp only [Option.map_some'] at h
    have hm := List.mem_of_find?_eq_some hf
    have hp := List.find?_some hf
    have h1 : e.1 = t := by simpa using hp
    have h2 : e.2 = d := by simpa using h
    have he : e = (t, d) := by
      cases e
      simp only at h1 h2
      simp [h1, h2]
    rw [← he]
    exact hm

theorem lookupToken_isSome_of_mem {v : Vocabulary} {t : Nat} {d : Descriptor}
    (h : (t, d) ∈ v.token_to_event) : (lookupToken v t).isSome := by
  unfold lookupToken
  rw [Option.isSome_map']
  rw [List.find?_isSome]
  exact ⟨(t, d), h, by simp⟩

theorem find?_eq_of_mem_nodup {l : List (Nat × Descriptor)}
    (hnd : (l.map Prod.fst).Nodup) {t : Nat} {d : Descriptor}
    (h : (t, d) ∈ l) : l.find? (fun e => e.1 == t) = some (t, d) := by
  induction l with
  | nil => simp at h
  | cons e rest ih =>
    rw [List.map_cons, List.nodup_cons] at hnd
    rcases List.mem_cons.mp h with he | hr
    · rw [← he]
      exact List.find?_cons_of_pos _ (by simp)
    · have hne : (e.1 == t) = false := by
        simp only [beq_eq_false_iff_ne, ne_eq]
        intro heq
        exact hnd.1 (heq ▸ (List.mem_map.mpr ⟨(t, d), hr, rfl⟩))
      rw [List.find?_cons_of_neg _ (by simp [hne])]
      exact ih hnd.2 hr

theorem mem_lookupToken {v : Vocabulary}
    (hnd : (v.token_to_event.map Prod.fst).Nodup)
    {t : Nat} {d : Descriptor} (h : (t, d) ∈ v.token_to_event) :
    lookupToken v t = some d := by
  unfold lookupToken
  rw [find?_eq_of_mem_nodup hnd h]
  rfl

theorem isPrimTok_isSome {v : Vocabulary} {t : Nat}
    (h : isPrimTok v t = true) : (lookupToken v t).isSome := by
  unfold isPrimTok at h
  cases hl : lookupToken v t with
  | none => rw [hl] at h; simp at h
  | some d => simp

/- ### Expansion lemmas -/

theorem expandTok_of_prim {v : Vocabulary} {t : Nat}
    (h : isPrimTok v t = true) : expandTok v t = [t] := by
  unfold isPrimTok at h
  unfold expandTok
  cases hl : lookupToken v t with
  | none => rfl
  | some d => cases d <;> simp_all

theorem expandList_append (v : Vocabulary) (l₁ l₂ : List Nat) :
    expandList v (l₁ ++ l₂) = expandList v l₁ ++ expandList v l₂ := by
  induction l₁ with
  | nil => rfl
  | cons t ts ih => simp [expandList, ih]

theorem expandList_of_prim {v : Vocabulary} {l : List Nat}
    (h : ∀ x ∈ l, isPrimTok v x = true) : expandList v l = l := by
  induction l with
  | nil => rfl
  | cons t ts ih =>
    rw [expandList, expandTok_of_prim (h t (by simp)),
      ih (fun x hx => h x (by simp [hx]))]
    rfl

theorem length_le_maxFullLen {l : List (Nat × Descriptor)} {t : Nat}
    {sc f : List Nat} (h : (t, .bpe sc f) ∈ l) :
    f.length ≤ l.foldr
      (fun e m =>
        max (match e.2 with
             | .bpe _ f => f.length
             | _ => 0) m) 0 := by
  induction l with
  | nil => simp at h
  | cons e rest ih =>
    rcases List.mem_cons.mp h with he | hr
    · rw [← he, List.foldr_cons]
      exact le_max_left _ _
    · exact le_trans (ih hr) (le_max_right _ _)

theorem expandTok_length_le (v : Vocabulary) (t : Nat) :
    (expandTok v t).length ≤ maxFullLen v + 1 := by
  unfold expandTok
  cases hl : lookupToken v t with
  | none => simp
  | some d =>
    cases d with
    | prim typ val => simp
    | bpe sc f =>
      show f.length ≤ maxFullLen v + 1
      have h2 := length_le_maxFullLen (lookupToken_mem hl)
      unfold maxFullLen
      omega

theorem expandList_length_le (v : Vocabulary) (l : List Nat) :
    (expandList v l).length ≤ l.length * (maxFullLen v + 1) := by
  induction l with
  | nil => simp [expandList]
  | cons t ts ih =>
    rw [expandList, List.length_append, List.length_cons, Nat.succ_mul]
    have := expandTok_length_le v t
    omega

/- ### Facts extracted from the vocabulary checks -/

/-- Flatness and nonemptiness of recorded full decompositions, phrased on
lookup results. -/
def FlatNE (v : Vocabulary) : Prop :=
  ∀ t sc f, lookupToken v t = some (.bpe sc f) →
    f ≠ [] ∧ ∀ x ∈ f, isPrimTok v x = true

theorem flatNonemptyVocab_flatNE {v : Vocabulary}
    (h : flatNonemptyVocab v = true) : FlatNE v := by
  intro t sc f hl
  have hm := lookupToken_mem hl
  unfold flatNonemptyVocab at h
  rw [List.all_eq_true] at h
  have he := h _ hm
  simp only [Bool.and_eq_true, Bool.not_eq_true', List.all_eq_true] at he
  refine ⟨?_, he.2⟩
  intro hf
  rw [hf] at he
  simp at he

theorem learnedVocab_nodup {v : Vocabulary} (h : learnedVocab v = true) :
    (v.token_to_event.map Prod.fst).Nodup := by
  unfold learnedVocab at h
  rw [Bool.and_eq_true] at h
  exact of_decide_eq_true h.1

theorem learnedVocab_bpe {v : Vocabulary} (h : learnedVocab v = true)
    {t : Nat} {sc f : List Nat} (hl : lookupToken v t = some (.bpe sc f)) :
    sc ≠ [] ∧ f ≠ [] ∧ (∀ x ∈ f, isPrimTok v x = true) ∧
      f = expandList v sc := by
  have hm := lookupToken_mem hl
  unfold learnedVocab at h
  rw [Bool.and_eq_true, List.all_eq_true] at h
  have he := h.2 _ hm
  simp only [Bool.and_eq_true, Bool.not_eq_true', List.all_eq_true,
    decide_eq_true_eq] at he
  obtain ⟨⟨⟨hsc, hf⟩, hfl⟩, hexp⟩ := he
  refine ⟨?_, ?_, hfl, hexp⟩
  · intro hn; rw [hn] at hsc; simp at hsc
  · intro hn; rw [hn] at hf; simp at hf

theorem learnedVocab_flatNE {v : Vocabulary} (h : learnedVocab v = true) :
    FlatNE v := by
  intro t sc f hl
  have := learnedVocab_bpe h hl
  exact ⟨this.2.1, this.2.2.1⟩

theorem succs_mem_isSome {v : Vocabulary} {tok : Nat} {sc : List Nat}
    (h : (tok, sc) ∈ set_bpe_tokens_successions v) :
    (lookupToken v tok).isSome := by
  unfold set_bpe_tokens_successions at h
  rw [List.mem_filterMap] at h
  obtain ⟨e, hm, he⟩ := h
  cases e with
  | mk t d =>
    cases d with
    | prim typ val => simp at he
    | bpe sc' f =>
      simp only [Option.some.injEq, Prod.mk.injEq] at he
      exact lookupToken_isSome_of_mem (he.1 ▸ hm)

theorem succs_mem_spec {v : Vocabulary} (hv : learnedVocab v = true)
    {tok : Nat} {sc : List Nat} (h : (tok, sc) ∈ set_bpe_tokens_successions v) :
    sc ≠ [] ∧ expandTok v tok = expandList v sc := by
  unfold set_bpe_tokens_successions at h
  rw [List.mem_filterMap] at h
  obtain ⟨e, hm, he⟩ := h
  cases e with
  | mk t d =>
    cases d with
    | prim typ val => simp at he
    | bpe sc' f =>
      simp only [Option.some.injEq, Prod.mk.injEq] at he
      obtain ⟨ht, hsc⟩ := he
      rw [ht, hsc] at hm
      have hl : lookupToken v tok = some (.bpe sc f) :=
        mem_lookupToken (learnedVocab_nodup hv) hm
      have hspec := learnedVocab_bpe hv hl
      refine ⟨hspec.1, ?_⟩
      unfold expandTok
      rw [hl]
      exact hspec.2.2.2

/- ### `isPrefixOf` decomposition -/

theorem isPrefixOf_exists : ∀ {l₁ l₂ : List Nat},
    l₁.isPrefixOf l₂ = true → ∃ u, l₂ = l₁ ++ u := by
  intro l₁
  induction l₁ with
  | nil => exact fun {l₂} _ => ⟨l₂, rfl⟩
  | cons a as ih =>
    intro l₂ h
    cases l₂ with
    | nil => simp [List.isPrefixOf] at h
    | cons b bs =>
      rw [List.isPrefixOf_cons₂] at h
      rw [Bool.and_eq_true] at h
      obtain ⟨u, hu⟩ := ih h.2
      have hab : a = b := by simpa using h.1
      exact ⟨u, by simp [hab, hu]⟩

/- ### Lemmas on the inner scan of `apply_bpe` -/

theorem bpeScanFuel_length_le (tok : Nat) (succ : List Nat) :
    ∀ fuel l, (bpeScanFuel tok succ fuel l).length ≤ l.length := by
  intro fuel
  induction fuel with
  | zero => intro l; cases l <;> simp [bpeScanFuel]
  | succ n ih =>
    intro l
    cases l with
    | nil => simp [bpeScanFuel]
    | cons t ts =>
      rw [bpeScanFuel]
      by_cases hp : succ.isPrefixOf (t :: ts) = true
      · rw [if_pos hp]
        have h1 := ih (ts.drop (succ.length - 1))
        have h2 : (ts.drop (succ.length - 1)).length ≤ ts.length := by
          rw [List.length_drop]; omega
        simp only [List.length_cons]
        omega
      · rw [if_neg hp]
        have := ih ts
        simp only [List.length_cons]
        omega

theorem bpeScanFuel_eq_of_length {tok : Nat} {succ : List Nat}
    (hsc : succ.length = 2) :
    ∀ fuel l, l.length ≤ fuel →
      (bpeScanFuel tok succ fuel l).length = l.length →
      bpeScanFuel tok succ fuel l = l := by
  intro fuel
  induction fuel with
  | zero =>
    intro l hl _
    cases l with
    | nil => rfl
    | cons t ts => simp at hl
  | succ n ih =>
    intro l hl hlen
    cases l with
    | nil => rfl
    | cons t ts =>
      rw [bpeScanFuel] at hlen ⊢
      by_cases hp : succ.isPrefixOf (t :: ts) = true
      · exfalso
        rw [if_pos hp] at hlen
        obtain ⟨u, hu⟩ := isPrefixOf_exists hp
        have hts : ts.length = succ.length - 1 + u.length := by
          have := congrArg List.length hu
          simp only [List.length_cons, List.length_append] at this
          omega
        have h1 := bpeScanFuel_length_le tok succ n (ts.drop (succ.length - 1))
        have h2 : (ts.drop (succ.length - 1)).length = u.length := by
          rw [List.length_drop]; omega
        simp only [List.length_cons] at hlen
        omega
      · rw [if_neg hp] at hlen ⊢
        simp only [List.length_cons, Nat.add_left_inj] at hlen
        rw [ih ts (by simpa using Nat.le_of_succ_le_succ hl) hlen]

theorem bpeScanFuel_expand {v : Vocabulary} {tok : Nat} {succ : List Nat}
    (hne : succ ≠ []) (hexp : expandTok v tok = expandList v succ) :
    ∀ fuel l, expandList v (bpeScanFuel tok succ fuel l) = expandList v l := by
  intro fuel
  induction fuel with
  | zero => intro l; cases l <;> rfl
  | succ n ih =>
    intro l
    cases l with
    | nil => rfl
    | cons t ts =>
      rw [bpeScanFuel]
      by_cases hp : succ.isPrefixOf (t :: ts) = true
      · rw [if_pos hp]
        obtain ⟨u, hu⟩ := isPrefixOf_exists hp
        have hdrop : ts.drop (succ.length - 1) = u := by
          cases succ with
          | nil => exact absurd rfl hne
          | cons s ss =>
            have : t :: ts = s :: (ss ++ u) := by simpa using hu
            have hts : ts = ss ++ u := (List.cons.injEq _ _ _ _ ▸ this).2
            rw [hts]
            simp [List.drop_left]
        rw [expandList, hexp, ih, hdrop, hu, expandList_append]
      · rw [if_neg hp]
        rw [expandList, expandList, ih]

theorem bpeScanFuel_mem {tok : Nat} {succ : List Nat} :
    ∀ {fuel l x}, x ∈ bpeScanFuel tok succ fuel l → x = tok ∨ x ∈ l := by
  intro fuel
  induction fuel with
  | zero =>
    intro l x h
    cases l with
    | nil => simp [bpeScanFuel] at h
    | cons t ts => exact Or.inr h
  | succ n ih =>
    intro l x h
    cases l with
    | nil => simp [bpeScanFuel] at h
    | cons t ts =>
      rw [bpeScanFuel] at h
      by_cases hp : succ.isPrefixOf (t :: ts) = true
      · rw [if_pos hp] at h
        rcases List.mem_cons.mp h with he | hm
        · exact Or.inl he
        · rcases ih hm with he | hm'
          · exact Or.inl he
          · exact Or.inr (List.mem_cons_of_mem _ (List.drop_subset _ _ hm'))
      · rw [if_neg hp] at h
        rcases List.mem_cons.mp h with he | hm
        · exact Or.inr (he ▸ List.mem_cons_self _ _)
        · rcases ih hm with he | hm'
          · exact Or.inl he
          · exact Or.inr (List.mem_cons_of_mem _ hm')

/- ### Lemmas on the rounds and the fixed-point loop of `apply_bpe` -/

theorem bpeScan_length_le (tok : Nat) (succ : List Nat) (l : List Nat) :
    (bpeScan tok succ l).length ≤ l.length :=
  bpeScanFuel_length_le tok succ l.length l

theorem bpeScan_eq_of_length {tok : Nat} {succ : List Nat}
    (hsc : succ.length = 2) {l : List Nat}
    (h : (bpeScan tok succ l).length = l.length) : bpeScan tok succ l = l :=
  bpeScanFuel_eq_of_length hsc l.length l (Nat.le_refl _) h

theorem bpeScan_expand {v : Vocabulary} {tok : Nat} {succ : List Nat}
    (hne : succ ≠ []) (hexp : expandTok v tok = expandList v succ)
    (l : List Nat) : expandList v (bpeScan tok succ l) = expandList v l :=
  bpeScanFuel_expand hne hexp l.length l

theorem bpeScan_mem {tok : Nat} {succ : List Nat} {l : List Nat} {x : Nat}
    (h : x ∈ bpeScan tok succ l) : x = tok ∨ x ∈ l :=
  bpeScanFuel_mem h

theorem applyRound_length_le (succs : List (Nat × List Nat)) :
    ∀ l, (applyRound succs l).length ≤ l.length := by
  induction succs with
  | nil => intro l; simp [applyRound]
  | cons p rest ih =>
    intro l
    rw [applyRound]
    exact le_trans (ih _) (bpeScan_length_le _ _ _)

theorem applyRound_eq_of_length {succs : List (Nat × List Nat)}
    (h2 : ∀ p ∈ succs, p.2.length = 2) :
    ∀ {l}, (applyRound succs l).length = l.length → applyRound succs l = l := by
  induction succs with
  | nil => intro l _; rfl
  | cons p rest ih =>
    intro l hlen
    rw [applyRound] at hlen ⊢
    have hb := bpeScan_length_le p.1 p.2 l
    have hr := applyRound_length_le rest (bpeScan p.1 p.2 l)
    have hbe : (bpeScan p.1 p.2 l).length = l.length := by omega
    have hsc : bpeScan p.1 p.2 l = l :=
      bpeScan_eq_of_length (h2 p (by simp)) hbe
    rw [hsc] at hlen ⊢
    exact ih (fun q hq => h2 q (by simp [hq])) hlen

theorem applyRound_expand {v : Vocabulary} {succs : List (Nat × List Nat)}
    (hs : ∀ p ∈ succs, p.2 ≠ [] ∧ expandTok v p.1 = expandList v p.2) :
    ∀ l, expandList v (applyRound succs l) = expandList v l := by
  induction succs with
  | nil => intro l; rfl
  | cons p rest ih =>
    intro l
    rw [applyRound]
    rw [ih (fun q hq => hs q (by simp [hq]))]
    exact bpeScan_expand (hs p (by simp)).1 (hs p (by simp)).2 l

theorem applyRound_mem {succs : List (Nat × List Nat)} :
    ∀ {l x}, x ∈ applyRound succs l → x ∈ l ∨ ∃ p ∈ succs, x = p.1 := by
  induction succs with
  | nil => intro l x h; exact Or.inl h
  | cons p rest ih =>
    intro l x h
    rw [applyRound] at h
    rcases ih h with hm | ⟨q, hq, he⟩
    · rcases bpeScan_mem hm with he | hm'
      · exact Or.inr ⟨p, by simp, he⟩
      · exact Or.inl hm'
    · exact Or.inr ⟨q, by simp [hq], he⟩

theorem applyLoopFuel_expand {v : Vocabulary} {succs : List (Nat × List Nat)}
    (hs : ∀ p ∈ succs, p.2 ≠ [] ∧ expandTok v p.1 = expandList v p.2) :
    ∀ fuel l, expandList v (applyLoopFuel succs fuel l) = expandList v l := by
  intro fuel
  induction fuel with
  | zero => intro l; rfl
  | succ n ih =>
    intro l
    rw [applyLoopFuel]
    by_cases hlt : (applyRound succs l).length < l.length
    · rw [if_pos hlt, ih, applyRound_expand hs]
    · rw [if_neg hlt, applyRound_expand hs]

theorem applyLoopFuel_mem {succs : List (Nat × List Nat)} :
    ∀ {fuel l x}, x ∈ applyLoopFuel succs fuel l →
      x ∈ l ∨ ∃ p ∈ succs, x = p.1 := by
  intro fuel
  induction fuel with
  | zero => intro l x h; exact Or.inl h
  | succ n ih =>
    intro l x h
    rw [applyLoopFuel] at h
    by_cases hlt : (applyRound succs l).length < l.length
    · rw [if_pos hlt] at h
      rcases ih h with hm | hp
      · exact applyRound_mem hm
      · exact Or.inr hp
    · rw [if_neg hlt] at h
      exact applyRound_mem h

theorem applyLoopFuel_fix {succs : List (Nat × List Nat)}
    (h2 : ∀ p ∈ succs, p.2.length = 2) :
    ∀ fuel l, l.length < fuel →
      applyRound succs (applyLoopFuel succs fuel l) =
        applyLoopFuel succs fuel l := by
  intro fuel
  induction fuel with
  | zero => intro l h; omega
  | succ n ih =>
    intro l hfuel
    rw [applyLoopFuel]
    by_cases hlt : (applyRound succs l).length < l.length
    · rw [if_pos hlt]
      exact ih _ (by omega)
    · rw [if_neg hlt]
      have hle := applyRound_length_le succs l
      have heq : (applyRound succs l).length = l.length := by omega
      have hfixed := applyRound_eq_of_length h2 heq
      rw [hfixed]
      exact hfixed

/- ### Lemmas on `decompose_bpe` -/

theorem expandTok_length_pos {v : Vocabulary} (hflat : FlatNE v) {t : Nat}
    (hs : (lookupToken v t).isSome) : 1 ≤ (expandTok v t).length := by
  unfold expandTok
  cases hl : lookupToken v t with
  | none => rw [hl] at hs; simp at hs
  | some d =>
    cases d with
    | prim a b => simp
    | bpe sc f =>
      show 1 ≤ f.length
      have := (hflat t sc f hl).1
      cases f with
      | nil => exact absurd rfl this
      | cons d0 ds => simp

theorem expandTok_prim_mem {v : Vocabulary} (hflat : FlatNE v) {t : Nat}
    (hs : (lookupToken v t).isSome) {x : Nat} (hx : x ∈ expandTok v t) :
    isPrimTok v x = true := by
  unfold expandTok at hx
  cases hl : lookupToken v t with
  | none => rw [hl] at hs; simp at hs
  | some d =>
    rw [hl] at hx
    cases d with
    | prim a b =>
      simp only [List.mem_singleton] at hx
      unfold isPrimTok
      rw [hx, hl]
    | bpe sc f => exact (hflat t sc f hl).2 x hx

theorem expandList_all_prim {v : Vocabulary} (hflat : FlatNE v) :
    ∀ {l : List Nat}, (∀ x ∈ l, (lookupToken v x).isSome) →
      ∀ x ∈ expandList v l, isPrimTok v x = true := by
  intro l
  induction l with
  | nil => intro _ x hx; simp [expandList] at hx
  | cons t ts ih =>
    intro hk x hx
    rw [expandList] at hx
    rcases List.mem_append.mp hx with h1 | h2
    · exact expandTok_prim_mem hflat (hk t (by simp)) h1
    · exact ih (fun y hy => hk y (by simp [hy])) x h2

theorem decomposeGo_eq {v : Vocabulary} (hflat : FlatNE v) :
    ∀ fuel l acc, (∀ x ∈ l, (lookupToken v x).isSome) →
      (expandList v l).length ≤ fuel →
      decomposeGo v fuel acc l = some (acc.reverse ++ expandList v l) := by
  intro fuel
  induction fuel with
  | zero =>
    intro l acc hk hb
    cases l with
    | nil => simp [decomposeGo, expandList]
    | cons t rest =>
      exfalso
      have h1 := expandTok_length_pos hflat (hk t (by simp))
      rw [expandList, List.length_append] at hb
      omega
  | succ n ih =>
    intro l acc hk hb
    cases l with
    | nil => simp [decomposeGo, expandList]
    | cons t rest =>
      have hs := hk t (by simp)
      cases hl : lookupToken v t with
      | none => rw [hl] at hs; simp at hs
      | some d =>
        cases d with
        | prim a b =>
          rw [decomposeGo, hl]
          have het : expandTok v t = [t] := by unfold expandTok; rw [hl]
          have hb' : (expandList v rest).length ≤ n := by
            rw [expandList, het, List.length_append] at hb
            simp only [List.length_cons, List.length_nil] at hb
            omega
          rw [ih rest (t :: acc) (fun x hx => hk x (by simp [hx])) hb']
          rw [expandList, het]
          simp
        | bpe sc f =>
          have hfl := hflat t sc f hl
          have het : expandTok v t = f := by unfold expandTok; rw [hl]
          cases f with
          | nil => exact absurd rfl hfl.1
          | cons d0 ds =>
            rw [decomposeGo, hl]
            have hprim : ∀ x ∈ ds, isPrimTok v x = true :=
              fun x hx => hfl.2 x (by simp [hx])
            have heds : expandList v ds = ds := expandList_of_prim hprim
            have hrec := ih (ds ++ rest) (d0 :: acc)
              (fun x hx => by
                rcases List.mem_append.mp hx with h1 | h2
                · exact isPrimTok_isSome (hprim x h1)
                · exact hk x (by simp [h2]))
              (by
                rw [expandList_append, heds, List.length_append]
                rw [expandList, het, List.length_append] at hb
                simp only [List.length_cons] at hb
                omega)
            show decomposeGo v n (d0 :: acc) (ds ++ rest) = _
            rw [hrec]
            rw [expandList, het, expandList_append, heds]
            simp

theorem decompose_bpe_eq {v : Vocabulary} (hflat : FlatNE v) {l : List Nat}
    (hk : ∀ x ∈ l, (lookupToken v x).isSome) :
    decompose_bpe v l = some (expandList v l) := by
  unfold decompose_bpe
  have hb : (expandList v l).length ≤ l.length * (maxFullLen v + 1) + 1 :=
    le_trans (expandList_length_le v l) (Nat.le_succ _)
  simpa using decomposeGo_eq hflat _ l [] hk hb

/- ### Lemmas on the learner -/

theorem learnStep_size {s s' : LearnState} (h : learnStep s = .ok s') :
    s'.vocab.size = s.vocab.size + 1 := by
  unfold learnStep at h
  split at h
  · simp at h
  · split at h
    · simp at h
    · simp at h
    · split at h
      · simp at h
      · simp only [Except.ok.injEq] at h
        rw [← h]
        simp [addEvent, Vocabulary.size]

theorem learnLoop_size {target : Nat} :
    ∀ {fuel : Nat} {s s' : LearnState}, target ≤ s.vocab.size + fuel →
      learnLoop target fuel s = .ok s' →
      s'.vocab.size = max s.vocab.size target := by
  intro fuel
  induction fuel with
  | zero =>
    intro s s' hb h
    rw [learnLoop] at h
    simp only [Except.ok.injEq] at h
    rw [← h]
    omega
  | succ n ih =>
    intro s s' hb h
    rw [learnLoop] at h
    by_cases hlt : s.vocab.size < target
    · rw [if_pos hlt] at h
      cases hst : learnStep s with
      | error e => rw [hst] at h; simp at h
      | ok s1 =>
        rw [hst] at h
        have hsz := learnStep_size hst
        have hr := ih (s := s1) (by omega) h
        rw [hr]
        omega
    · rw [if_neg hlt] at h
      simp only [Except.ok.injEq] at h
      rw [← h]
      omega

theorem learnLoop_fuel_stable {target : Nat} :
    ∀ {k m : Nat} {s : LearnState}, target ≤ s.vocab.size + k → k ≤ m →
      learnLoop target m s = learnLoop target k s := by
  intro k
  induction k with
  | zero =>
    intro m s hb _
    have hge : ¬ s.vocab.size < target := by omega
    cases m with
    | zero => rfl
    | succ m' => simp only [learnLoop, if_neg hge]
  | succ n ih =>
    intro m s hb hm
    cases m with
    | zero => omega
    | succ m' =>
      simp only [learnLoop]
      by_cases hlt : s.vocab.size < target
      · rw [if_pos hlt, if_pos hlt]
        cases hst : learnStep s with
        | error e => rfl
        | ok s1 =>
          have hsz := learnStep_size hst
          show learnLoop target m' s1 = learnLoop target n s1
          exact ih (by omega) (by omega)
      · rw [if_neg hlt, if_neg hlt]

theorem pairsOf_eq_nil {tr : List Nat} (h : tr.length ≤ 1) : pairsOf tr = [] := by
  cases tr with
  | nil => rfl
  | cons a rest =>
    cases rest with
    | nil => rfl
    | cons b r => simp at h

theorem countPairs_eq_nil {tracks : List (List Nat)}
    (h : ∀ tr ∈ tracks, tr.length ≤ 1) : countPairs tracks = [] := by
  unfold countPairs
  have haux : ∀ (ts : List (List Nat)) (acc : List ((Nat × Nat) × Nat)),
      (∀ tr ∈ ts, pairsOf tr = []) →
      ts.foldl (fun occ tr => (pairsOf tr).foldl bump occ) acc = acc := by
    intro ts
    induction ts with
    | nil => intro acc _; rfl
    | cons tr rest ih =>
      intro acc hp
      rw [List.foldl_cons, hp tr (by simp)]
      exact ih acc (fun x hx => hp x (by simp [hx]))
  exact haux tracks [] (fun tr htr => pairsOf_eq_nil (h tr htr))

/- ### Flatness is preserved by a learner iteration -/

theorem find?_append_some {p : Nat × Descriptor → Bool} :
    ∀ {l₁ : List (Nat × Descriptor)} {l₂ : List (Nat × Descriptor)}
      {e : Nat × Descriptor}, l₁.find? p = some e → (l₁ ++ l₂).find? p = some e := by
  intro l₁
  induction l₁ with
  | nil => intro l₂ e h; simp at h
  | cons a rest ih =>
    intro l₂ e h
    rw [List.cons_append]
    by_cases hp : p a = true
    · rw [List.find?_cons_of_pos _ hp] at h ⊢
      exact h
    · rw [List.find?_cons_of_neg _ (by simpa using hp)] at h ⊢
      exact ih h

theorem lookupToken_addEvent_of_isSome {v : Vocabulary} {d : Descriptor}
    {t : Nat} (h : (lookupToken v t).isSome) :
    lookupToken (addEvent v d) t = lookupToken v t := by
  unfold lookupToken at h ⊢
  cases hf : v.token_to_event.find? (fun e => e.1 == t) with
  | none => rw [hf] at h; simp at h
  | some e =>
    show ((v.token_to_event ++ [(nextId v, d)]).find?
      (fun e => e.1 == t)).map Prod.snd = Option.map Prod.snd (some e)
    rw [find?_append_some hf]

theorem isPrimTok_addEvent {v : Vocabulary} {d : Descriptor} {x : Nat}
    (h : isPrimTok v x = true) : isPrimTok (addEvent v d) x = true := by
  have hs := isPrimTok_isSome h
  unfold isPrimTok at h ⊢
  rw [lookupToken_addEvent_of_isSome hs]
  exact h

theorem flatVocab_spec {v : Vocabulary} (hf : flatVocab v = true) {t : Nat}
    {sc f : List Nat} (hm : (t, .bpe sc f) ∈ v.token_to_event) :
    ∀ x ∈ f, isPrimTok v x = true := by
  unfold flatVocab at hf
  rw [List.all_eq_true] at hf
  have := hf _ hm
  simp only [List.all_eq_true] at this
  exact this

theorem flattenTok_all_prim {v : Vocabulary} (hf : flatVocab v = true)
    {t : Nat} {l : List Nat} (h : flattenTok v t = .ok l) :
    ∀ x ∈ l, isPrimTok v x = true := by
  unfold flattenTok at h
  cases hl : lookupToken v t with
  | none => rw [hl] at h; simp at h
  | some d =>
    rw [hl] at h
    cases d with
    | prim a b =>
      simp only [Except.ok.injEq] at h
      intro x hx
      rw [← h] at hx
      simp only [List.mem_singleton] at hx
      unfold isPrimTok
      rw [hx, hl]
    | bpe sc f0 =>
      simp only [Except.ok.injEq] at h
      intro x hx
      rw [← h] at hx
      exact flatVocab_spec hf (lookupToken_mem hl) x hx

theorem learnStep_flat {s s' : LearnState} (hf : flatVocab s.vocab = true)
    (h : learnStep s = .ok s') : flatVocab s'.vocab = true := by
  unfold learnStep at h
  split at h
  · simp at h
  · rename_i pr hmk
    split at h
    · simp at h
    · simp at h
    · rename_i fa fb hfa hfb
      split at h
      · simp at h
      · simp only [Except.ok.injEq] at h
        rw [← h]
        show flatVocab (addEvent s.vocab (.bpe [pr.1, pr.2] (fa ++ fb))) = true
        unfold flatVocab
        rw [List.all_eq_true]
        intro ent hent
        have hent' : ent ∈ s.vocab.token_to_event ++
            [(nextId s.vocab, Descriptor.bpe [pr.1, pr.2] (fa ++ fb))] := hent
        rcases List.mem_append.mp hent' with hv | hnew
        · cases ent with
          | mk t d =>
            cases d with
            | prim a b => simp
            | bpe sc f =>
              simp only [List.all_eq_true]
              intro x hx
              exact isPrimTok_addEvent (flatVocab_spec hf hv x hx)
        · simp only [List.mem_singleton] at hnew
          rw [hnew]
          simp only [List.all_eq_true]
          intro x hx
          rcases List.mem_append.mp hx with h1 | h2
          · exact isPrimTok_addEvent (flattenTok_all_prim hf hfa x h1)
          · exact isPrimTok_addEvent (flattenTok_all_prim hf hfb x h2)

/- ### Lemmas on the `load_params` dict comprehensions -/

theorem dictInsert_of_not_mem {α β : Type} [DecidableEq α] {m : List (α × β)}
    {k : α} (h : k ∉ m.map Prod.fst) (val : β) :
    dictInsert m k val = m ++ [(k, val)] := by
  induction m with
  | nil => rfl
  | cons e rest ih =>
    cases e with
    | mk k' v' =>
      simp only [List.map_cons, List.mem_cons, not_or] at h
      have hne : ¬ k' = k := fun he => h.1 he.symm
      rw [dictInsert, if_neg hne, ih h.2, List.cons_append]

theorem foldl_dictInsert_eq_append {ps : List (Nat × Descriptor)} :
    ∀ {acc : List (Nat × Descriptor)},
      (ps.map Prod.fst).Nodup →
      (∀ k ∈ acc.map Prod.fst, k ∉ ps.map Prod.fst) →
      ps.foldl (fun m e => dictInsert m e.1 e.2) acc = acc ++ ps := by
  induction ps with
  | nil => intro acc _ _; simp
  | cons e rest ih =>
    intro acc hnd hdisj
    rw [List.foldl_cons]
    rw [List.map_cons, List.nodup_cons] at hnd
    have hk : e.1 ∉ acc.map Prod.fst := fun hk => hdisj e.1 hk (by simp)
    rw [dictInsert_of_not_mem hk e.2]
    rw [ih hnd.2 (by
      intro k hkm
      rw [List.map_append] at hkm
      rcases List.mem_append.mp hkm with h1 | h2
      · have := hdisj k h1
        rw [List.map_cons, List.mem_cons, not_or] at this
        exact this.2
      · simp only [List.map_cons, List.map_nil, List.mem_singleton] at h2
        rw [h2]
        exact hnd.1)]
    simp

/- ### The state-threaded codec operations equal the pure ones -/

theorem bpeScanFuelSt_spec (st : CodecState) (tok : Nat) (succ : List Nat) :
    ∀ fuel l, bpeScanFuelSt st tok succ fuel l =
      (st, bpeScanFuel tok succ fuel l) := by
  intro fuel
  induction fuel with
  | zero => intro l; cases l <;> rfl
  | succ n ih =>
    intro l
    cases l with
    | nil => rfl
    | cons t ts =>
      rw [bpeScanFuelSt, bpeScanFuel]
      by_cases hp : succ.isPrefixOf (t :: ts) = true
      · rw [if_pos hp, if_pos hp, ih]
      · rw [if_neg hp, if_neg hp, ih]

theorem applyRoundSt_spec :
    ∀ (succs : List (Nat × List Nat)) (st : CodecState) (l : List Nat),
      applyRoundSt st succs l = (st, applyRound succs l) := by
  intro succs
  induction succs with
  | nil => intro st l; rfl
  | cons p rest ih =>
    intro st l
    rw [applyRoundSt, bpeScanFuelSt_spec]
    show applyRoundSt st rest (bpeScanFuel p.1 p.2 l.length l) =
      (st, applyRound (p :: rest) l)
    rw [applyRound]
    exact ih st (bpeScan p.1 p.2 l)

theorem applyLoopFuelSt_spec :
    ∀ (fuel : Nat) (st : CodecState) (l : List Nat),
      applyLoopFuelSt st fuel l =
        (st, applyLoopFuel st.bpe_successions fuel l) := by
  intro fuel
  induction fuel with
  | zero => intro st l; rfl
  | succ n ih =>
    intro st l
    simp only [applyLoopFuelSt, applyLoopFuel, applyRoundSt_spec]
    by_cases hlt : (applyRound st.bpe_successions l).length < l.length
    · rw [if_pos hlt, if_pos hlt, ih]
    · rw [if_neg hlt, if_neg hlt]

theorem decomposeGoSt_spec (st : CodecState) :
    ∀ fuel acc l, decomposeGoSt st fuel acc l =
      (st, decomposeGo st.vocab fuel acc l) := by
  intro fuel
  induction fuel with
  | zero => intro acc l; cases l <;> rfl
  | succ n ih =>
    intro acc l
    cases l with
    | nil => rfl
    | cons t rest =>
      rw [decomposeGoSt, decomposeGo]
      cases hl : lookupToken st.vocab t with
      | none => rfl
      | some d =>
        cases d with
        | prim a b => exact ih _ _
        | bpe sc f =>
          show (match f ++ rest with
                | [] => (st, some acc.reverse)
                | x :: xs => decomposeGoSt st n (x :: acc) xs) =
            (st, match f ++ rest with
                 | [] => some acc.reverse
                 | x :: xs => decomposeGo st.vocab n (x :: acc) xs)
          cases f ++ rest with
          | nil => rfl
          | cons x xs => exact ih _ _

/- ### Evaluation of the full learner run on the scenario corpus -/

theorem bpe_scenario_eval :
    bpe [[0, 1, 0, 1, 2]] vocabFour 5 =
      .ok (⟨vocabFive, [[4, 4, 2]]⟩, 5, 3, -40) := by
  have hloop : learnLoop 5 (5 - vocabFour.size)
      ⟨vocabFour, [[0, 1, 0, 1, 2]]⟩ = .ok ⟨vocabFive, [[4, 4, 2]]⟩ := by
    decide
  have hom : meanLen [[0, 1, 0, 1, 2]] = 5 := by
    norm_num [meanLen]
  have hnm : meanLen [[4, 4, 2]] = 3 := by
    norm_num [meanLen]
  unfold bpe
  rw [if_neg (by decide), hloop]
  show (if meanLen [[0, 1, 0, 1, 2]] = 0 then
      Except.error LearnError.zeroDivisionError
    else Except.ok ((⟨vocabFive, [[4, 4, 2]]⟩ : LearnState),
      meanLen [[0, 1, 0, 1, 2]], meanLen [[4, 4, 2]],
      (meanLen [[4, 4, 2]] - meanLen [[0, 1, 0, 1, 2]]) /
        meanLen [[0, 1, 0, 1, 2]] * 100)) = _
  rw [hom, hnm, if_neg (by norm_num : ¬ (5 : ℚ) = 0)]
  have hvar : ((3 : ℚ) - 5) / 5 * 100 = -40 := by norm_num
  rw [hvar]

/- ### Claim theorems -/

/-- C1 counterexample: over the learned vocabulary `{0,1,2,3,4}`, the
sequence `[4]` consists of vocabulary tokens, yet
`decompose_bpe (apply_bpe [4])` returns `[0, 1]`, not `[4]` — so the
round-trip law fails for sequences that already contain merged tokens. -/
theorem c1_roundtrip_counterexample :
    (lookupToken vocabFive 4).isSome = true ∧
    decompose_bpe vocabFive
      (apply_bpe true (set_bpe_tokens_successions vocabFive) [4]) ≠
      some [4] := by
  exact ⟨by decide, by decide⟩

/-- C1 (amended): for a vocabulary of the shape the learner produces
(distinct ids; every merged entry has a nonempty succession and a nonempty,
flat full decomposition equal to the flattening of its succession), and for
any sequence `s` of primitive tokens of that vocabulary,
`decompose_bpe (apply_bpe s) = s`. -/
theorem c1_roundtrip (v : Vocabulary) (s : List Nat)
    (hv : learnedVocab v = true) (hs : ∀ x ∈ s, isPrimTok v x = true) :
    decompose_bpe v (apply_bpe true (set_bpe_tokens_successions v) s) =
      some s := by
  have hflat : FlatNE v := learnedVocab_flatNE hv
  have hsucc : ∀ p ∈ set_bpe_tokens_successions v,
      p.2 ≠ [] ∧ expandTok v p.1 = expandList v p.2 := by
    intro p hp
    cases p with
    | mk tok sc => exact succs_mem_spec hv hp
  have hrdef : apply_bpe true (set_bpe_tokens_successions v) s =
      applyLoopFuel (set_bpe_tokens_successions v) (s.length + 1) s := rfl
  have hknown : ∀ x ∈ apply_bpe true (set_bpe_tokens_successions v) s,
      (lookupToken v x).isSome := by
    intro x hx
    rw [hrdef] at hx
    rcases applyLoopFuel_mem hx with hm | ⟨p, hp, he⟩
    · exact isPrimTok_isSome (hs x hm)
    · cases p with
      | mk tok sc =>
        rw [he]
        exact succs_mem_isSome hp
  rw [decompose_bpe_eq hflat hknown, hrdef, applyLoopFuel_expand hsucc,
    expandList_of_prim hs]

/-- C1 witness: the round-trip law at the scenario vocabulary and the
primitive sequence `[0, 1, 0, 1, 2]`. -/
theorem c1_roundtrip_witness :
    decompose_bpe vocabFive
      (apply_bpe true (set_bpe_tokens_successions vocabFive)
        [0, 1, 0, 1, 2]) = some [0, 1, 0, 1, 2] :=
  c1_roundtrip vocabFive [0, 1, 0, 1, 2] (by decide) (by decide)

/-- C2 counterexample: on the corpus track `[0, 1, 0, 1, 2]` with vocabulary
`{0, 1, 2, 3}`, the learner iteration rewrites the track to `[4, 4, 2]`
(both non-overlapping occurrences of `(0, 1)` merge in the single
left-to-right pass), not to the `[4, 0, 1, 2]` the claim states. -/
theorem c2_scenario_counterexample :
    learnStep ⟨vocabFour, [[0, 1, 0, 1, 2]]⟩ =
      .ok ⟨vocabFive, [[4, 4, 2]]⟩ ∧
    ([[4, 4, 2]] : List (List Nat)) ≠ [[4, 0, 1, 2]] := by
  exact ⟨by decide, by decide⟩

/-- C2 (amended): with vocabulary `{0,1,2,3}` and corpus track
`[0,1,0,1,2]`, learning with target size 5 selects the winning pair
`(0, 1)`, registers token `4` with immediate succession `[0, 1]` and full
decomposition `[0, 1]`, and rewrites the track to `[4, 4, 2]`;
`apply_bpe [0,1,0,1,2]` reproduces the compressed track `[4, 4, 2]`
exactly, and `decompose_bpe [4, 0, 1, 2]` yields `[0, 1, 0, 1, 2]`. -/
theorem c2_scenario_amended :
    maxKey (countPairs [[0, 1, 0, 1, 2]]) = some (0, 1) ∧
    learnStep ⟨vocabFour, [[0, 1, 0, 1, 2]]⟩ =
      .ok ⟨vocabFive, [[4, 4, 2]]⟩ ∧
    bpe [[0, 1, 0, 1, 2]] vocabFour 5 =
      .ok (⟨vocabFive, [[4, 4, 2]]⟩, 5, 3, -40) ∧
    apply_bpe true (set_bpe_tokens_successions vocabFive) [0, 1, 0, 1, 2] =
      [4, 4, 2] ∧
    decompose_bpe vocabFive [4, 0, 1, 2] = some [0, 1, 0, 1, 2] := by
  exact ⟨by decide, by decide, bpe_scenario_eval, by decide, by decide⟩

/-- C3 counterexample: on the empty corpus with `k = 1` the learner does not
terminate with the vocabulary grown by `k`: the run returns the `ValueError`
of `max` on an empty occurrence dict, so no final vocabulary of size
`initial + k` exists. -/
theorem c3_termination_counterexample :
    bpe [] vocabFour (vocabFour.size + 1) =
      .error .valueErrorMaxEmpty := by
  decide

/-- C3 (amended): for every corpus and every `k ≥ 1` the learner terminates
(the result is computed with exact fuel, and `learnLoop_fuel_stable` shows
any larger fuel gives the same result), and whenever it returns without an
error the vocabulary size equals the initial size plus `k`, each successful
iteration having grown the vocabulary by exactly one entry
(`learnStep_size`).  If the corpus runs out of adjacent pairs first, it
fails with the `ValueError` of `max` instead of reaching the target. -/
theorem c3_termination_amended (corpus : List (List Nat)) (v : Vocabulary)
    (k : Nat) (r : LearnState × ℚ × ℚ × ℚ) (hk : 1 ≤ k)
    (h : bpe corpus v (v.size + k) = .ok r) :
    r.1.vocab.size = v.size + k := by
  unfold bpe at h
  rw [if_neg (by omega)] at h
  split at h
  · simp at h
  · rename_i s' hL
    split at h
    · simp at h
    · simp only [Except.ok.injEq] at h
      have hb : v.size + k ≤
          (⟨v, corpus⟩ : LearnState).vocab.size + (v.size + k - v.size) := by
        show v.size + k ≤ v.size + (v.size + k - v.size)
        omega
      have hsz := learnLoop_size hb hL
      rw [← h]
      show s'.vocab.size = v.size + k
      have : (⟨v, corpus⟩ : LearnState).vocab.size = v.size := rfl
      omega

/-- C3 witness: the amended claim at the scenario corpus with `k = 1`. -/
theorem c3_termination_witness :
    ((⟨vocabFive, [[4, 4, 2]]⟩ : LearnState),
      (5 : ℚ), (3 : ℚ), (-40 : ℚ)).1.vocab.size = vocabFour.size + 1 :=
  c3_termination_amended [[0, 1, 0, 1, 2]] vocabFour 1 _ (by decide)
    bpe_scenario_eval

/-- C4: a learner iteration preserves flatness — if before the iteration
every merged token's recorded full decomposition contains only primitive
tokens, the same holds (over the grown vocabulary) after the iteration, the
new token included. -/
theorem c4_flatness (s s' : LearnState) (hf : flatVocab s.vocab = true)
    (h : learnStep s = .ok s') : flatVocab s'.vocab = true :=
  learnStep_flat hf h

/-- C4 witness: the scenario iteration keeps the vocabulary flat. -/
theorem c4_flatness_witness : flatVocab vocabFive = true :=
  c4_flatness ⟨vocabFour, [[0, 1, 0, 1, 2]]⟩ ⟨vocabFive, [[4, 4, 2]]⟩
    (by decide) (by decide)

/-- C5 counterexample: loading a persisted bijection in which tokens `0` and
`1` share one descriptor does not fail: the rebuilt state is fully
populated, with both tokens present in `_token_to_event` and the shared
descriptor silently mapped to the later token `1` in `_event_to_token`. -/
theorem c5_corrupt_counterexample :
    load_token_to_event dupPairs =
      { token_to_event_map := dupPairs
        event_to_token_map := [(.prim "Pitch" "60", 1)]
        has_bpe := false } ∧
    (0, Descriptor.prim "Pitch" "60") ∈
      (load_token_to_event dupPairs).token_to_event_map ∧
    (1, Descriptor.prim "Pitch" "60") ∈
      (load_token_to_event dupPairs).token_to_event_map := by
  exact ⟨by decide, by decide, by decide⟩

/-- C5 (amended): `load_params` performs no duplicate-descriptor check:
whenever the persisted pairs have distinct token ids, the rebuilt
`_token_to_event` contains every pair — duplicate descriptors included,
with the descriptor mapped to the later token in `_event_to_token` — and no
error condition exists on this code path. -/
theorem c5_corrupt_amended (pairs : List (Nat × Descriptor))
    (hnd : (pairs.map Prod.fst).Nodup) :
    (load_token_to_event pairs).token_to_event_map = pairs := by
  show pairs.foldl (fun m e => dictInsert m e.1 e.2) [] = pairs
  have h : pairs.foldl (fun m e => dictInsert m e.1 e.2) [] = [] ++ pairs :=
    foldl_dictInsert_eq_append hnd (by simp)
  simpa using h

/-- C5 witness: the amended claim at the duplicate-descriptor input. -/
theorem c5_corrupt_witness :
    (load_token_to_event dupPairs).token_to_event_map = dupPairs :=
  c5_corrupt_amended dupPairs (by decide)

/-- C6: a corpus with no adjacent token pairs (no tracks, or only tracks of
length at most 1) and a target above the current size makes the learner fail
explicitly with the `ValueError` raised by `max()` on the empty occurrence
dict — it neither loops forever nor reaches the mean-length statistics, so
no division by zero occurs. -/
theorem c6_empty_corpus (corpus : List (List Nat)) (v : Vocabulary) (k : Nat)
    (hk : 1 ≤ k) (hshort : ∀ tr ∈ corpus, tr.length ≤ 1) :
    bpe corpus v (v.size + k) = .error .valueErrorMaxEmpty := by
  have hstep : learnStep ⟨v, corpus⟩ = .error .valueErrorMaxEmpty := by
    unfold learnStep
    rw [countPairs_eq_nil hshort]
    rfl
  have hLL : learnLoop (v.size + k) k ⟨v, corpus⟩ =
      .error .valueErrorMaxEmpty := by
    cases k with
    | zero => omega
    | succ n =>
      rw [learnLoop]
      rw [if_pos (by show v.size < v.size + (n + 1); omega)]
      rw [hstep]
  unfold bpe
  rw [if_neg (by omega)]
  have hfuel : v.size + k - v.size = k := by omega
  rw [hfuel, hLL]

/-- C6 witness: the empty corpus with `k = 1`. -/
theorem c6_empty_corpus_witness :
    bpe [] vocabFour (vocabFour.size + 1) = .error .valueErrorMaxEmpty :=
  c6_empty_corpus [] vocabFour 1 (by decide) (by decide)

/-- C7: with `has_bpe` false — and the §3 invariant that the flag is false
exactly when no merged token exists, so every descriptor in the vocabulary
is primitive — `apply_bpe` returns its input unchanged, and `decompose_bpe`
returns its input unchanged for any sequence of vocabulary tokens. -/
theorem c7_noop_when_disabled (hb : Bool) (v : Vocabulary)
    (succs : List (Nat × List Nat)) (s : List Nat) (hflag : hb = false)
    (hvoc : v.token_to_event.all (fun e => !e.2.isBPE) = true)
    (hs : ∀ x ∈ s, (lookupToken v x).isSome) :
    apply_bpe hb succs s = s ∧ decompose_bpe v s = some s := by
  have hnobpe : ∀ {t : Nat} {sc f : List Nat},
      lookupToken v t = some (.bpe sc f) → False := by
    intro t sc f hl
    have hm := lookupToken_mem hl
    rw [List.all_eq_true] at hvoc
    have := hvoc _ hm
    simp [Descriptor.isBPE] at this
  constructor
  · rw [hflag]
    rfl
  · have hprim : ∀ x ∈ s, isPrimTok v x = true := by
      intro x hx
      have hso := hs x hx
      cases hl : lookupToken v x with
      | none => rw [hl] at hso; simp at hso
      | some d =>
        cases d with
        | prim a b => unfold isPrimTok; rw [hl]
        | bpe sc f => exact absurd (hnobpe hl) (by simp)
    have hflat : FlatNE v := fun t sc f hl => absurd (hnobpe hl) (by simp)
    rw [decompose_bpe_eq hflat hs, expandList_of_prim hprim]

/-- C7 witness: both operations leave `[0, 1, 2]` unchanged over the
merge-free vocabulary `{0, 1, 2, 3}`. -/
theorem c7_noop_witness :
    apply_bpe false (set_bpe_tokens_successions vocabFour) [0, 1, 2] =
      [0, 1, 2] ∧
    decompose_bpe vocabFour [0, 1, 2] = some [0, 1, 2] :=
  c7_noop_when_disabled false vocabFour
    (set_bpe_tokens_successions vocabFour) [0, 1, 2] rfl (by decide)
    (by decide)

/-- C8: for a merge table of the shape learning produces (every immediate
succession has length 2), `apply_bpe` is idempotent: its output is a fixed
point of a further application. -/
theorem c8_apply_idempotent (hb : Bool) (succs : List (Nat × List Nat))
    (s : List Nat) (h2 : ∀ p ∈ succs, p.2.length = 2) :
    apply_bpe hb succs (apply_bpe hb succs s) = apply_bpe hb succs s := by
  cases hb with
  | false => rfl
  | true =>
    show applyLoopFuel succs
        ((applyLoopFuel succs (s.length + 1) s).length + 1)
        (applyLoopFuel succs (s.length + 1) s) =
      applyLoopFuel succs (s.length + 1) s
    have hfix := applyLoopFuel_fix h2 (s.length + 1) s (by omega)
    set r := applyLoopFuel succs (s.length + 1) s with hr
    rw [show applyLoopFuel succs (r.length + 1) r =
        if (applyRound succs r).length < r.length then
          applyLoopFuel succs r.length (applyRound succs r)
        else applyRound succs r from rfl]
    rw [hfix]
    rw [if_neg (lt_irrefl _)]

/-- C8 witness: applying the scenario merge table twice to
`[0, 1, 0, 1, 2]` equals applying it once. -/
theorem c8_apply_idempotent_witness :
    apply_bpe true [(4, [0, 1])]
      (apply_bpe true [(4, [0, 1])] [0, 1, 0, 1, 2]) =
    apply_bpe true [(4, [0, 1])] [0, 1, 0, 1, 2] :=
  c8_apply_idempotent true [(4, [0, 1])] [0, 1, 0, 1, 2] (by decide)

/-- C9 counterexample: over a vocabulary whose merged token `5` records the
full decomposition `[4, 0]` with `4` itself merged, `[5]` is a sequence of
vocabulary tokens but `decompose_bpe [5] = [4, 0]` still contains the
merged token `4`: the scan resumes at the second newly inserted token, so
the first inserted token is never examined and is not expanded. -/
theorem c9_rescan_counterexample :
    (lookupToken vocabNonFlat 5).isSome = true ∧
    decompose_bpe vocabNonFlat [5] = some [4, 0] ∧
    (lookupToken vocabNonFlat 4).map Descriptor.isBPE = some true := by
  exact ⟨by decide, by decide, by decide⟩

/-- C9 (amended): after expanding a merged token, scanning continues from
the second newly inserted token — the first inserted token is skipped — so
a merged token appearing first in a recorded decomposition would not be
expanded; for vocabularies whose recorded decompositions are nonempty and
contain only primitive tokens, `decompose_bpe` expands every token fully
and its output never contains a merged token. -/
theorem c9_rescan_amended (v : Vocabulary) (s : List Nat)
    (hv : flatNonemptyVocab v = true)
    (hs : ∀ x ∈ s, (lookupToken v x).isSome) :
    decompose_bpe v s = some (expandList v s) ∧
    (expandList v s).all (isPrimTok v) = true := by
  have hflat := flatNonemptyVocab_flatNE hv
  refine ⟨decompose_bpe_eq hflat hs, ?_⟩
  rw [List.all_eq_true]
  exact fun x hx => expandList_all_prim hflat hs x hx

/-- C9 witness: the amended claim over the learned scenario vocabulary on
the mixed sequence `[4, 2]`. -/
theorem c9_rescan_witness :
    decompose_bpe vocabFive [4, 2] = some (expandList vocabFive [4, 2]) ∧
    (expandList vocabFive [4, 2]).all (isPrimTok vocabFive) = true :=
  c9_rescan_amended vocabFive [4, 2] (by decide) (by decide)

/-- C10: `apply_bpe` and `decompose_bpe` are pure: threading the codec state
(`has_bpe`, `bpe_successions`, `vocab`) through a state-passing translation
of their bodies returns the state unchanged, and the token result is a
function of that state and the input sequence alone. -/
theorem c10_purity (st : CodecState) (s : List Nat) :
    (apply_bpe_st st s).1 = st ∧ (decompose_bpe_st st s).1 = st ∧
    (apply_bpe_st st s).2 = apply_bpe st.has_bpe st.bpe_successions s ∧
    (decompose_bpe_st st s).2 = decompose_bpe st.vocab s := by
  have ha : apply_bpe_st st s =
      (st, apply_bpe st.has_bpe st.bpe_successions s) := by
    unfold apply_bpe_st apply_bpe
    cases hb : st.has_bpe with
    | false => simp
    | true => simp [applyLoopFuelSt_spec]
  have hd : decompose_bpe_st st s = (st, decompose_bpe st.vocab s) := by
    unfold decompose_bpe_st decompose_bpe
    exact decomposeGoSt_spec st _ [] s
  rw [ha, hd]
  exact ⟨rfl, rfl, rfl, rfl⟩

end MidiTok
